import Mathlib

/-!
Verification development for the exploding-dice statistics engine
(`js/calculate.js`, `js/index.js` and the shared utility file holding
`require`, `simulateSumToInfinity`, `formatDouble`, `formatPercentage`).

The JavaScript works on IEEE numbers that in every computation of interest
hold integers or finite sums of reciprocals of powers of the side count, so
the embedding uses `ℤ` for indices and `ℚ` for probabilities.  A JS number
that may be `NaN` (only the parser can produce one) is `Option ℤ`, with
`none` as `NaN`.  The process-wide memoization caches are pure: the cached
value of a key equals the recomputed one, so the embedding models the
mathematical value computed by `calculateProbabilityForResultEqualTo` and
friends directly.
-/

namespace DiceCalc

/-! ### Series summation utility (`simulateSumToInfinity`)

The JS do-while loop advances `i` while
`i < minIterations || (i < maxIterations && (addend > threshold || nextAddend > threshold))`.
A continuing iteration therefore has `i < max minIterations maxIterations`,
so the loop makes at most `max minIterations maxIterations - startIndex`
passes after the first.  The embedding threads exactly that number as
structural fuel; when the fuel hits zero the JS condition is false as well
(see `sstiLoop_spec`' s zero case), so the fuel never cuts a run short. -/

/-- One state of the do-while loop of `simulateSumToInfinity`: before each
pass, `newValue` holds the terms summed so far and `nextAddend` holds
`sumFunction(i + 1)`.  The body increments `i`, shifts `nextAddend` into the
addend, recomputes the lookahead and accumulates. -/
def sstiLoop (sumFunction : ℤ → ℚ) (threshold : ℚ) (minIterations maxIterations : ℤ) :
    ℕ → ℤ → ℚ → ℚ → ℚ
  | 0, _, newValue, nextAddend =>
      -- fuel 0 only occurs with max minIterations maxIterations ≤ i + 1,
      -- where the JS while-condition is false: return the accumulated sum.
      newValue + nextAddend
  | fuel + 1, i, newValue, nextAddend =>
      -- the pass at index i + 1: addend is the old lookahead `nextAddend`,
      -- the new lookahead is `sumFunction (i + 1 + 1)`
      if i + 1 < minIterations ∨
          (i + 1 < maxIterations ∧
            (threshold < nextAddend ∨ threshold < sumFunction (i + 1 + 1))) then
        sstiLoop sumFunction threshold minIterations maxIterations fuel (i + 1)
          (newValue + nextAddend) (sumFunction (i + 1 + 1))
      else
        newValue + nextAddend

/-- `simulateSumToInfinity(sumFunction, {threshold, minIterations, maxIterations, startIndex})`.
The caller-facing defaults in the JS are threshold `0.0001`, minIterations
`20`, maxIterations `5000`, startIndex `1`; call sites of the embedding pass
them explicitly. -/
def simulateSumToInfinity (sumFunction : ℤ → ℚ) (threshold : ℚ)
    (minIterations maxIterations startIndex : ℤ) : ℚ :=
  sstiLoop sumFunction threshold minIterations maxIterations
    (max minIterations maxIterations - startIndex).toNat
    startIndex (sumFunction startIndex) (sumFunction (startIndex + 1))

/-- The stopping condition of the do-while loop of `simulateSumToInfinity`,
read off its negated while-condition at index `n`: the loop halts at the
first `n > startIndex` with
`n ≥ minIterations ∧ (n ≥ maxIterations ∨ (f n ≤ threshold ∧ f (n+1) ≤ threshold))`. -/
def sstiStop (sumFunction : ℤ → ℚ) (threshold : ℚ) (minIterations maxIterations n : ℤ) : Prop :=
  minIterations ≤ n ∧
    (maxIterations ≤ n ∨ (sumFunction n ≤ threshold ∧ sumFunction (n + 1) ≤ threshold))

instance (f : ℤ → ℚ) (t mi ma n) : Decidable (sstiStop f t mi ma n) := by
  unfold sstiStop; infer_instance

/-! ### The dice probability engine (`DiceCalculator`)

A valid `Dice` carries `count ∈ [1,16]`, `sides ∈ [2,100]` and an integer
modifier.  The engine functions below take the triple as plain arguments
`sides modifier : ℤ`, `count : ℕ`. -/

/-- `getExplosionCountForResult(k) = Math.floor(k / this.dice.sides)`. -/
def getExplosionCountForResult (sides k : ℤ) : ℤ := Int.fdiv k sides

/-- The `count === 1` arm of `calculateProbabilityForResultEqualTo`.  With
`count === 1` the guard `count === 1 && kWithoutModifier % sides === 0 ||
kWithoutModifier < 0` is `kWithoutModifier % sides === 0 || kWithoutModifier < 0`
(`&&` binds tighter than `||` in JS); the divisibility test is stated with
`%` on `ℤ`, which agrees with the JS remainder being `0`.  In the surviving
branch `kWithoutModifier ≥ 0`, so `.toNat` on the explosion count is exact. -/
def probabilityForResultEqualToSingle (sides modifier k : ℤ) : ℚ :=
  let kWithoutModifier := k - modifier
  if kWithoutModifier % sides = 0 ∨ kWithoutModifier < 0 then 0
  else 1 / (sides : ℚ) ^ ((getExplosionCountForResult sides kWithoutModifier).toNat + 1)

/-- `calculateProbabilityForResultEqualTo` (the memoizing wrapper
`probabilityForResultEqualTo` returns the same value).  For `count ≥ 2` the
guard reduces to `kWithoutModifier < 0` since `count === 1` is false, and the
dice is split into `withCount(1)` (same sides and modifier) and
`withCount(count - 1, sides, 0)`, summing products over `i = 1 .. k - 1`
(`kWithModifier` is `k`).  `count = 0` is unreachable: the `Dice` constructor
rejects it and in JS the recursion would throw inside `withCount`. -/
def probabilityForResultEqualTo (sides : ℤ) : ℤ → ℕ → ℤ → ℚ
  | _, 0, _ => 0
  | modifier, 1, k => probabilityForResultEqualToSingle sides modifier k
  | modifier, c + 2, k =>
      if k - modifier < 0 then 0
      else
        ∑ i ∈ Finset.Icc (1 : ℤ) (k - 1),
          probabilityForResultEqualToSingle sides modifier i *
            probabilityForResultEqualTo sides 0 (c + 1) (k - i)

/-- Recursion kernel of `probabilityForResultLessOrEqualTo`: the JS recurses
on `k - 1` down to the base `k ≤ modifier` (value `0`); the embedding walks
the same chain upward from the base, `n` steps above the modifier. -/
def lessOrEqualAux (sides modifier : ℤ) (count : ℕ) : ℕ → ℚ
  | 0 => 0
  | n + 1 =>
      lessOrEqualAux sides modifier count n +
        probabilityForResultEqualTo sides modifier count (modifier + (n + 1 : ℕ))

/-- `probabilityForResultLessOrEqualTo(k)`: `0` for `k ≤ modifier`, else
`probabilityForResultLessOrEqualTo(k - 1) + probabilityForResultEqualTo(k)`
(see `probabilityForResultLessOrEqualTo_rec`). -/
def probabilityForResultLessOrEqualTo (sides modifier : ℤ) (count : ℕ) (k : ℤ) : ℚ :=
  lessOrEqualAux sides modifier count (k - modifier).toNat

/-- `probabilityForResultLessThan(k) = probabilityForResultLessOrEqualTo(k - 1)`. -/
def probabilityForResultLessThan (sides modifier : ℤ) (count : ℕ) (k : ℤ) : ℚ :=
  probabilityForResultLessOrEqualTo sides modifier count (k - 1)

/-- `probabilityForResultGreaterThan(k) = 1 - probabilityForResultLessOrEqualTo(k)`. -/
def probabilityForResultGreaterThan (sides modifier : ℤ) (count : ℕ) (k : ℤ) : ℚ :=
  1 - probabilityForResultLessOrEqualTo sides modifier count k

/-- `probabilityForResultGreaterOrEqualTo(k) = 1 - probabilityForResultLessThan(k)`. -/
def probabilityForResultGreaterOrEqualTo (sides modifier : ℤ) (count : ℕ) (k : ℤ) : ℚ :=
  1 - probabilityForResultLessThan sides modifier count k

/-- `calculateExpectedValue()`.  For `count === 1` it sums `i * P(X = i)`
from `startIndex = modifier` with the default convergence controls; for
`count > 1` it is `count * E[withCount(1, sides, 0)] + modifier`, and that
inner call takes the `count === 1` branch with modifier `0`, inlined here. -/
def calculateExpectedValue (sides modifier : ℤ) (count : ℕ) : ℚ :=
  if count = 1 then
    simulateSumToInfinity
      (fun i => (i : ℚ) * probabilityForResultEqualTo sides modifier 1 i)
      (1 / 10000) 20 5000 modifier
  else
    (count : ℚ) *
        simulateSumToInfinity
          (fun i => (i : ℚ) * probabilityForResultEqualTo sides 0 1 i)
          (1 / 10000) 20 5000 0 +
      (modifier : ℚ)

/-- `calculateVariance(exp)`.  For `count === 1` it sums
`(exp - i)² * P(X = i)` from `startIndex = modifier`; for `count > 1` it
returns `new DiceCalculator(this.dice.withCount(1)).calculateVariance(exp)` —
`withCount(1)` keeps sides and modifier, so the delegated call is the
`count === 1` expression verbatim, inlined in the else branch. -/
def calculateVariance (sides modifier : ℤ) (count : ℕ) (exp : ℚ) : ℚ :=
  if count = 1 then
    simulateSumToInfinity
      (fun i => (exp - (i : ℚ)) ^ 2 * probabilityForResultEqualTo sides modifier 1 i)
      (1 / 10000) 20 5000 modifier
  else
    simulateSumToInfinity
      (fun i => (exp - (i : ℚ)) ^ 2 * probabilityForResultEqualTo sides modifier 1 i)
      (1 / 10000) 20 5000 modifier

/-- The unbounded `for (let i = 1 + modifier; ; i++)` scan of
`calculateMedian`, with fuel making the traversal total: `none` means the
scan has not returned within `fuel` steps (for every fuel, i.e. it hangs). -/
def calculateMedianLoop (sides modifier : ℤ) (count : ℕ) : ℕ → ℤ → Option ℚ
  | 0, _ => none
  | fuel + 1, i =>
      if 1 / 2 ≤ probabilityForResultLessOrEqualTo sides modifier count i ∧
          1 / 2 ≤ probabilityForResultGreaterOrEqualTo sides modifier count i then
        some (i : ℚ)
      else if 1 / 2 < probabilityForResultLessOrEqualTo sides modifier count i then
        some ((i : ℚ) - 1 / 2)
      else
        calculateMedianLoop sides modifier count fuel (i + 1)

/-- `calculateMedian()`, started at `1 + modifier`. -/
def calculateMedian (sides modifier : ℤ) (count : ℕ) (fuel : ℕ) : Option ℚ :=
  calculateMedianLoop sides modifier count fuel (1 + modifier)

/-- `probabilityToWinAgainst(otherDice)`: sums
`P(self = i) * P(other < i)` with `startIndex = min(self.modifier,
other.modifier)` and `minIterations = self.sides * self.count`. -/
def probabilityToWinAgainst (sides modifier : ℤ) (count : ℕ)
    (otherSides otherModifier : ℤ) (otherCount : ℕ) : ℚ :=
  simulateSumToInfinity
    (fun i =>
      probabilityForResultEqualTo sides modifier count i *
        probabilityForResultLessThan otherSides otherModifier otherCount i)
    (1 / 10000) (sides * (count : ℤ)) 5000 (min modifier otherModifier)

/-- `calculateProbabilityMap(len = 25)`: `P(X ≥ k)` for `k = 0 .. len - 1`. -/
def calculateProbabilityMap (sides modifier : ℤ) (count : ℕ) (len : ℕ) : List ℚ :=
  (List.range len).map fun k =>
    probabilityForResultGreaterOrEqualTo sides modifier count (k : ℤ)

/-! ### The dice model and parser (`class Dice`, `require`)

Strings are `List Char`; a JS number that may be `NaN` is `Option ℤ` with
`none` as `NaN` (comparisons against `NaN` are false, `NaN * -1` and
`Math.abs(NaN)` are `NaN`, and `NaN` prints as `"NaN"`). -/

/-- `require(bool, message)`: throws the message when the condition fails. -/
def require (bool : Bool) (message : List Char) : Except (List Char) Unit :=
  if bool then Except.ok () else Except.error message

/-- JS `>` where the left side may be `NaN` (then the comparison is false). -/
def jsGt (a : Option ℤ) (b : ℤ) : Bool :=
  match a with
  | none => false
  | some x => b < x

/-- JS `>=` where the left side may be `NaN`. -/
def jsGe (a : Option ℤ) (b : ℤ) : Bool :=
  match a with
  | none => false
  | some x => b ≤ x

/-- JS `<=` where the left side may be `NaN`. -/
def jsLe (a : Option ℤ) (b : ℤ) : Bool :=
  match a with
  | none => false
  | some x => x ≤ b

/-- The `Dice` value: `{name, count, sides, modifier}` as stored by the
constructor. -/
structure Dice where
  name : List Char
  count : Option ℤ
  sides : Option ℤ
  modifier : Option ℤ
deriving DecidableEq, Repr

/-- The `Dice` constructor: stores the four fields and then runs the four
`require` checks in source order.  Note the third check enforces
`count <= 16` while its message reads `"Dice count may not exceed 32"`. -/
def diceConstructor (name : List Char) (count sides modifier : Option ℤ) :
    Except (List Char) Dice := do
  let d : Dice := ⟨name, count, sides, modifier⟩
  require (jsGt d.count 0) "Dice count must be positive".toList
  require (jsGe d.sides 2) "Number of sides of a dice must be at least 2".toList
  require (jsLe d.count 16) "Dice count may not exceed 32".toList
  require (jsLe d.sides 100) "Number of sides may not exceed 100".toList
  return d

/-- The delimiter class of `name.split(new RegExp("[dDwW\+\-]"))`. -/
def jsDelim (c : Char) : Bool :=
  c == 'd' || c == 'D' || c == 'w' || c == 'W' || c == '+' || c == '-'

/-- JS `String.prototype.split` on a single-character-class regex: adjacent
delimiters and delimiters at either end produce empty tokens. -/
def jsSplit : List Char → List (List Char)
  | [] => [[]]
  | c :: rest =>
      if jsDelim c then [] :: jsSplit rest
      else
        match jsSplit rest with
        | [] => [[c]]
        | t :: ts => (c :: t) :: ts

/-- JS `String.prototype.trim`. -/
def jsTrim (s : List Char) : List Char :=
  ((s.dropWhile Char.isWhitespace).reverse.dropWhile Char.isWhitespace).reverse

/-- Value of the leading decimal-digit run, `none` when there is none. -/
def jsParseIntDigits (s : List Char) : Option ℕ :=
  let ds := s.takeWhile Char.isDigit
  if ds.isEmpty then none
  else some (ds.foldl (fun acc c => 10 * acc + (c.toNat - 48)) 0)

/-- JS `parseInt` with no radix argument, on the inputs this program feeds
it: skip whitespace, optional sign, then the longest digit prefix; `NaN`
(i.e. `none`) when no digit follows.  (The automatic hexadecimal mode for a
`"0x"` prefix is not modelled; no claim exercises it, and the parser's
tokens are cut at every `d`, `D`, `w`, `W`, `+`, `-`.) -/
def jsParseInt (s : List Char) : Option ℤ :=
  match s.dropWhile Char.isWhitespace with
  | '-' :: rest => (jsParseIntDigits rest).map fun n => -(n : ℤ)
  | '+' :: rest => (jsParseIntDigits rest).map fun n => (n : ℤ)
  | s' => (jsParseIntDigits s').map fun n => (n : ℤ)

/-- Decimal digits of `n`, most significant first (auxiliary fuel ≥ `n`
suffices since the argument at least halves each step). -/
def natToCharsAux : ℕ → ℕ → List Char
  | 0, _ => []
  | fuel + 1, n =>
      if n = 0 then []
      else natToCharsAux fuel (n / 10) ++ [Char.ofNat (48 + n % 10)]

/-- JS rendering of a nonnegative integer. -/
def natToChars (n : ℕ) : List Char :=
  if n = 0 then ['0'] else natToCharsAux (n + 1) n

/-- JS string interpolation of a number: `NaN` prints as `"NaN"`. -/
def jsNumToChars : Option ℤ → List Char
  | none => "NaN".toList
  | some z => if z < 0 then '-' :: natToChars z.natAbs else natToChars z.natAbs

/-- `Math.abs`, with `Math.abs(NaN) = NaN`. -/
def jsAbs : Option ℤ → Option ℤ
  | none => none
  | some z => some (z.natAbs : ℤ)

/-- `Dice.prettyName(count, sides, modifier)`:
`"{count}d{sides}"`, then `"+" / "-"` and `Math.abs(modifier)` unless
`modifier !== 0` fails.  `NaN !== 0` is true and `NaN > 0` is false, so a
`NaN` modifier yields the suffix `"-NaN"`. -/
def Dice.prettyName (count sides modifier : Option ℤ) : List Char :=
  jsNumToChars count ++ ['d'] ++ jsNumToChars sides ++
    (if modifier ≠ some 0 then
      (if jsGt modifier 0 then ['+'] else ['-']) ++ jsNumToChars (jsAbs modifier)
    else [])

/-- `Dice.parse(name)`: split on the delimiter class, require at least two
tokens, token 0 (empty → 1) is the count, token 1 the sides, token 2 (when
present, even empty) the modifier magnitude, negated when the original text
contains `-`; finally the constructor checks the bounds. -/
def Dice.parse (name : List Char) : Except (List Char) Dice :=
  let tokens := jsSplit name
  if tokens.length < 2 then Except.error ("Invalid dice description: ".toList ++ name)
  else
    let diceCountString := jsTrim (tokens.getD 0 [])
    let count : Option ℤ :=
      if diceCountString.length = 0 then some 1 else jsParseInt diceCountString
    let sides : Option ℤ := jsParseInt (jsTrim (tokens.getD 1 []))
    let isNegative := name.contains '-'
    let modifier0 : Option ℤ :=
      match tokens.get? 2 with
      | some tok => jsParseInt (jsTrim tok)
      | none => some 0
    let modifier := if isNegative then modifier0.map (fun z => -z) else modifier0
    diceConstructor (Dice.prettyName count sides modifier) count sides modifier

/-! ### The result aggregator (`calculate`) -/

/-- The `DiceResult` record.  `median` carries the scan fuel (`none` = the
scan did not return); `standardDeviation = Math.sqrt(variance)` is omitted:
a square root leaves `ℚ` and no claim concerns it.  Each entry of
`pToWinAgainstOthers` keeps the competing dice triple in place of its
`diceName`. -/
structure DiceResult where
  expectedValue : ℚ
  median : Option ℚ
  variance : ℚ
  pFail : ℚ
  pGreaterThan : List ℚ
  pToWinAgainstOthers : List ((ℤ × ℤ × ℕ) × ℚ)
deriving Repr

/-- `calculateWinProbabilityMap()`, over the concurring dices. -/
def calculateWinProbabilityMap (sides modifier : ℤ) (count : ℕ)
    (concurringDices : List (ℤ × ℤ × ℕ)) : List ((ℤ × ℤ × ℕ) × ℚ) :=
  concurringDices.map fun d =>
    (d, probabilityToWinAgainst sides modifier count d.1 d.2.1 d.2.2)

/-- `calculate()`: expected value, then variance at that expectation, the
median, `pFail = probabilityForResultLessThan(4)`, the `P(X ≥ k)` window and
the win probabilities. -/
def calculate (sides modifier : ℤ) (count : ℕ) (concurringDices : List (ℤ × ℤ × ℕ))
    (medianFuel : ℕ) : DiceResult :=
  let expValue := calculateExpectedValue sides modifier count
  let variance := calculateVariance sides modifier count expValue
  { expectedValue := expValue
    median := calculateMedian sides modifier count medianFuel
    variance := variance
    pFail := probabilityForResultLessThan sides modifier count 4
    pGreaterThan := calculateProbabilityMap sides modifier count 25
    pToWinAgainstOthers := calculateWinProbabilityMap sides modifier count concurringDices }

/-! ### Basic lemmas about the probability engine -/

/-- Unfolding `probabilityForResultEqualTo` at `count = 1`. -/
lemma probabilityForResultEqualTo_one (sides modifier k : ℤ) :
    probabilityForResultEqualTo sides modifier 1 k =
      probabilityForResultEqualToSingle sides modifier k := rfl

/-- Unfolding `probabilityForResultEqualTo` at `count = 0`. -/
lemma probabilityForResultEqualTo_zero (sides modifier k : ℤ) :
    probabilityForResultEqualTo sides modifier 0 k = 0 := rfl

/-- Unfolding `probabilityForResultEqualTo` at `count = c + 2`: the recursive
convolution over the `count === 1` split and the zero-modifier remainder. -/
lemma probabilityForResultEqualTo_conv (sides modifier : ℤ) (c : ℕ) (k : ℤ) :
    probabilityForResultEqualTo sides modifier (c + 2) k =
      if k - modifier < 0 then 0
      else
        ∑ i ∈ Finset.Icc (1 : ℤ) (k - 1),
          probabilityForResultEqualToSingle sides modifier i *
            probabilityForResultEqualTo sides 0 (c + 1) (k - i) := rfl

/-- `probabilityForResultLessOrEqualTo` satisfies the JS recursion:
`0` at or below the modifier, else the value one lower plus the mass at `k`. -/
lemma probabilityForResultLessOrEqualTo_rec (sides modifier : ℤ) (count : ℕ) (k : ℤ) :
    probabilityForResultLessOrEqualTo sides modifier count k =
      if modifier < k then
        probabilityForResultLessOrEqualTo sides modifier count (k - 1) +
          probabilityForResultEqualTo sides modifier count k
      else 0 := by
  unfold probabilityForResultLessOrEqualTo
  by_cases h : modifier < k
  · rw [if_pos h]
    have h1 : (k - modifier).toNat = (k - 1 - modifier).toNat + 1 := by omega
    rw [h1, lessOrEqualAux]
    congr 2
    push_cast
    omega
  · rw [if_neg h]
    have h1 : (k - modifier).toNat = 0 := by omega
    rw [h1]
    rfl

/-- The single-die mass is zero at or below the modifier (`k - modifier` is
then negative or the multiple `0` of `sides`). -/
lemma probabilityForResultEqualToSingle_zero_low (sides modifier k : ℤ)
    (h : k ≤ modifier) : probabilityForResultEqualToSingle sides modifier k = 0 := by
  unfold probabilityForResultEqualToSingle
  rcases lt_or_eq_of_le h with h' | h'
  · rw [if_pos (Or.inr (by omega))]
  · rw [if_pos (Or.inl (by rw [h']; simp))]

/-- The single-die mass is nonnegative for `sides ≥ 2`. -/
lemma probabilityForResultEqualToSingle_nonneg (sides modifier k : ℤ) (hs : 2 ≤ sides) :
    0 ≤ probabilityForResultEqualToSingle sides modifier k := by
  unfold probabilityForResultEqualToSingle
  dsimp only
  split
  · exact le_refl 0
  · have h0 : (0 : ℚ) < (sides : ℚ) := by exact_mod_cast (by omega : (0 : ℤ) < sides)
    positivity

/-- Every mass value is nonnegative for `sides ≥ 2`. -/
lemma probabilityForResultEqualTo_nonneg (sides : ℤ) (hs : 2 ≤ sides) :
    ∀ (count : ℕ) (modifier k : ℤ), 0 ≤ probabilityForResultEqualTo sides modifier count k := by
  intro count
  induction count with
  | zero => intro m k; exact le_refl 0
  | succ c ih =>
    intro m k
    match c with
    | 0 =>
      rw [probabilityForResultEqualTo_one]
      exact probabilityForResultEqualToSingle_nonneg sides m k hs
    | c' + 1 =>
      rw [probabilityForResultEqualTo_conv]
      split
      · exact le_refl 0
      · exact Finset.sum_nonneg fun i _ =>
          mul_nonneg (probabilityForResultEqualToSingle_nonneg sides m i hs) (ih 0 (k - i))

/-- The CDF recursion kernel is monotone in its step count for `sides ≥ 2`. -/
lemma lessOrEqualAux_mono (sides modifier : ℤ) (count : ℕ) (hs : 2 ≤ sides)
    {n n' : ℕ} (h : n ≤ n') :
    lessOrEqualAux sides modifier count n ≤ lessOrEqualAux sides modifier count n' := by
  induction h with
  | refl => exact le_refl _
  | step h ih =>
    refine le_trans ih ?_
    rw [lessOrEqualAux]
    exact le_add_of_nonneg_right (probabilityForResultEqualTo_nonneg sides hs count _ _)

/-- The CDF is nonnegative for `sides ≥ 2`. -/
lemma probabilityForResultLessOrEqualTo_nonneg (sides modifier : ℤ) (count : ℕ) (k : ℤ)
    (hs : 2 ≤ sides) : 0 ≤ probabilityForResultLessOrEqualTo sides modifier count k :=
  lessOrEqualAux_mono sides modifier count hs (Nat.zero_le _)

/-- Summing an interval one past its top over `ℤ`. -/
lemma sum_Icc_top (a b : ℤ) (h : a ≤ b + 1) (f : ℤ → ℚ) :
    ∑ j ∈ Finset.Icc a (b + 1), f j = (∑ j ∈ Finset.Icc a b, f j) + f (b + 1) := by
  have hins : Finset.Icc a (b + 1) = insert (b + 1) (Finset.Icc a b) := by
    ext x
    simp only [Finset.mem_Icc, Finset.mem_insert]
    omega
  rw [hins, Finset.sum_insert (by simp only [Finset.mem_Icc]; omega)]
  ring

/-- Summing an `Ioc` interval one past its top over `ℤ`. -/
lemma sum_Ioc_top (a b : ℤ) (h : a ≤ b) (f : ℤ → ℚ) :
    ∑ j ∈ Finset.Ioc a (b + 1), f j = (∑ j ∈ Finset.Ioc a b, f j) + f (b + 1) := by
  have hins : Finset.Ioc a (b + 1) = insert (b + 1) (Finset.Ioc a b) := by
    ext x
    simp only [Finset.mem_Ioc, Finset.mem_insert]
    omega
  rw [hins, Finset.sum_insert (by simp only [Finset.mem_Ioc]; omega)]
  ring

/-- The CDF is the sum of the masses over `(modifier, k]`. -/
lemma probabilityForResultLessOrEqualTo_eq_sum (sides modifier : ℤ) (count : ℕ) (k : ℤ) :
    probabilityForResultLessOrEqualTo sides modifier count k =
      ∑ i ∈ Finset.Ioc modifier k, probabilityForResultEqualTo sides modifier count i := by
  have haux : ∀ n : ℕ,
      lessOrEqualAux sides modifier count n =
        ∑ i ∈ Finset.Ioc modifier (modifier + n), probabilityForResultEqualTo sides modifier count i := by
    intro n
    induction n with
    | zero => simp [lessOrEqualAux]
    | succ m ih =>
      rw [lessOrEqualAux, ih]
      have h1 : modifier + ((m : ℤ) + 1) = (modifier + m) + 1 := by ring
      have h2 : (modifier + (m + 1 : ℕ) : ℤ) = (modifier + m) + 1 := by push_cast; ring
      rw [h2, sum_Ioc_top modifier (modifier + m) (by omega)]
  unfold probabilityForResultLessOrEqualTo
  by_cases h : modifier ≤ k
  · rw [haux]
    congr 1
    congr 1
    omega
  · rw [show (k - modifier).toNat = 0 by omega]
    rw [haux]
    have : Finset.Ioc modifier k = ∅ := Finset.Ioc_eq_empty (by omega)
    simp [this]

/-! ### The single-die CDF in closed form

Writing `n` for the distance above the modifier, `q = n / sides` and
`r = n % sides` (natural division), the single-die CDF equals
`1 - (sides - r) / sides ^ (q + 1)`: each full block of `sides` outcomes
contributes `(sides - 1) / sides ^ (block + 1)` and the multiples of `sides`
carry no mass.  In particular the single-die CDF never exceeds `1`. -/

/-- Value of the single-die mass at distance `m` above the modifier. -/
lemma probabilityForResultEqualToSingle_add_natCast (s : ℕ) (modifier : ℤ)
    (m : ℕ) :
    probabilityForResultEqualToSingle (s : ℤ) modifier (modifier + (m : ℤ)) =
      if m % s = 0 then 0 else 1 / (s : ℚ) ^ (m / s + 1) := by
  unfold probabilityForResultEqualToSingle getExplosionCountForResult
  rw [show modifier + (m : ℤ) - modifier = (m : ℤ) by ring]
  by_cases hz : m % s = 0
  · rw [if_pos (Or.inl (by rw [← Int.ofNat_emod]; exact_mod_cast hz)), if_pos hz]
  · have h1 : ((m : ℤ) % (s : ℤ)) ≠ 0 := by
      rw [← Int.ofNat_emod]
      exact_mod_cast hz
    rw [if_neg (not_or.mpr ⟨h1, by omega⟩), if_neg hz]
    rw [← Int.ofNat_fdiv, Int.toNat_natCast]
    push_cast
    ring

lemma lessOrEqualAux_single (sides : ℤ) (hs : 2 ≤ sides) (modifier : ℤ) (n : ℕ) :
    lessOrEqualAux sides modifier 1 n =
      1 - ((sides : ℚ) - ((n % sides.toNat : ℕ) : ℚ)) / (sides : ℚ) ^ (n / sides.toNat + 1) := by
  obtain ⟨s, rfl⟩ : ∃ s : ℕ, sides = (s : ℤ) := ⟨sides.toNat, (Int.toNat_of_nonneg (by omega)).symm⟩
  have hs2 : 2 ≤ s := by exact_mod_cast hs
  simp only [Int.toNat_natCast, Int.cast_natCast]
  have hS0 : (0 : ℚ) < (s : ℚ) := by exact_mod_cast (by omega : 0 < s)
  have hSne : (s : ℚ) ≠ 0 := ne_of_gt hS0
  induction n with
  | zero =>
    rw [lessOrEqualAux]
    rw [Nat.zero_mod, Nat.zero_div, pow_one]
    push_cast
    rw [sub_zero, div_self hSne]
    norm_num
  | succ n ih =>
    rw [lessOrEqualAux, ih, probabilityForResultEqualTo_one,
      probabilityForResultEqualToSingle_add_natCast s modifier (n + 1)]
    have hdm := Nat.div_add_mod (n + 1) s
    by_cases hz : (n + 1) % s = 0
    · rw [if_pos hz, hz]
      obtain ⟨q', hq'⟩ : ∃ q', (n + 1) / s = q' + 1 := by
        refine ⟨(n + 1) / s - 1, ?_⟩
        rcases Nat.eq_zero_or_pos ((n + 1) / s) with h0 | h0
        · rw [h0] at hdm
          simp at hdm
          omega
        · omega
      rw [hq'] at hdm
      have hexp : s * (q' + 1) = s * q' + s := by ring
      have hn : n = s * q' + (s - 1) := by omega
      have hnm : n % s = s - 1 := by
        rw [hn, Nat.mul_add_mod]
        exact Nat.mod_eq_of_lt (by omega)
      have hnd : n / s = q' := by
        rw [hn, Nat.mul_add_div (by omega : 0 < s), Nat.div_eq_of_lt (by omega : s - 1 < s)]
        omega
      rw [hq', hnm, hnd]
      have hc1 : ((s - 1 : ℕ) : ℚ) = (s : ℚ) - 1 := by
        have h : ((s - 1 : ℕ) : ℤ) = (s : ℤ) - 1 := by omega
        exact_mod_cast h
      rw [hc1]
      push_cast
      rw [pow_succ]
      field_simp
      ring
    · rw [if_neg hz]
      have hrs : (n + 1) % s < s := Nat.mod_lt _ (by omega)
      generalize hq : (n + 1) / s = q at hdm ⊢
      generalize hr : (n + 1) % s = r at hdm hz hrs ⊢
      have hn : n = s * q + (r - 1) := by omega
      have hnm : n % s = r - 1 := by
        rw [hn, Nat.mul_add_mod]
        exact Nat.mod_eq_of_lt (by omega)
      have hnd : n / s = q := by
        rw [hn, Nat.mul_add_div (by omega : 0 < s), Nat.div_eq_of_lt (by omega : r - 1 < s)]
        omega
      rw [hnm, hnd]
      have hc1 : ((r - 1 : ℕ) : ℚ) = ((r : ℕ) : ℚ) - 1 := by
        have h : ((r - 1 : ℕ) : ℤ) = ((r : ℕ) : ℤ) - 1 := by omega
        exact_mod_cast h
      rw [hc1]
      have hpow : (s : ℚ) ^ (q + 1) ≠ 0 := by positivity
      field_simp
      ring

/-- The single-die CDF never exceeds `1`. -/
lemma probabilityForResultLessOrEqualTo_single_le_one (sides modifier k : ℤ) (hs : 2 ≤ sides) :
    probabilityForResultLessOrEqualTo sides modifier 1 k ≤ 1 := by
  unfold probabilityForResultLessOrEqualTo
  rw [lessOrEqualAux_single sides hs]
  have hS0 : (0 : ℚ) < (sides : ℚ) := by exact_mod_cast (by omega : (0 : ℤ) < sides)
  have hrlt : ((k - modifier).toNat % sides.toNat) < sides.toNat := Nat.mod_lt _ (by omega)
  have hnum : (0 : ℚ) ≤ (sides : ℚ) - (((k - modifier).toNat % sides.toNat : ℕ) : ℚ) := by
    have h : (((k - modifier).toNat % sides.toNat : ℕ) : ℚ) ≤ (sides : ℚ) := by
      have h2 : (((k - modifier).toNat % sides.toNat : ℕ) : ℤ) ≤ sides := by omega
      have h3 := (@Int.cast_le ℚ _ _ _).mpr h2
      push_cast at h3
      exact h3
    linarith
  have hden : (0 : ℚ) < (sides : ℚ) ^ ((k - modifier).toNat / sides.toNat + 1) := by positivity
  have hfrac : (0 : ℚ) ≤
      ((sides : ℚ) - (((k - modifier).toNat % sides.toNat : ℕ) : ℚ)) /
        (sides : ℚ) ^ ((k - modifier).toNat / sides.toNat + 1) := div_nonneg hnum (le_of_lt hden)
  linarith

/-! ### The convolution identity for the multi-die CDF

The `count ≥ 2` CDF is the convolution of the single-die mass (with the
modifier) against the CDF of the remaining dice (with modifier zero), summed
over the same window `i = 1 .. k - 1` that the JS mass loop uses.  Because
that window starts at `1`, single-die outcomes `≤ 0` (which occur whenever
the modifier is negative enough) never contribute: the multi-die
distribution can carry total mass well below `1`. -/

lemma sum_Ioc_split (a b c : ℤ) (hab : a ≤ b) (hbc : b ≤ c) (f : ℤ → ℚ) :
    (∑ i ∈ Finset.Ioc a b, f i) + ∑ i ∈ Finset.Ioc b c, f i = ∑ i ∈ Finset.Ioc a c, f i := by
  rw [← Finset.sum_union ?hdisj]
  · rw [Finset.Ioc_union_Ioc_eq_Ioc hab hbc]
  case hdisj =>
    rw [Finset.disjoint_left]
    intro x hx hy
    simp only [Finset.mem_Ioc] at hx hy
    omega

/-- The CDF at an argument at or below the modifier is `0` (any count). -/
lemma probabilityForResultLessOrEqualTo_zero_low (sides modifier : ℤ) (count : ℕ) (k : ℤ)
    (h : k ≤ modifier) : probabilityForResultLessOrEqualTo sides modifier count k = 0 := by
  unfold probabilityForResultLessOrEqualTo
  rw [show (k - modifier).toNat = 0 by omega]
  rfl

lemma probabilityForResultLessOrEqualTo_conv (sides modifier : ℤ) (c : ℕ) (k : ℤ) :
    probabilityForResultLessOrEqualTo sides modifier (c + 2) k =
      ∑ i ∈ Finset.Icc (1 : ℤ) (k - 1),
        probabilityForResultEqualToSingle sides modifier i *
          probabilityForResultLessOrEqualTo sides 0 (c + 1) (k - i) := by
  have hG0 : ∀ k' : ℤ, k' ≤ modifier + 1 →
      (∑ i ∈ Finset.Icc (1 : ℤ) (k' - 1),
          probabilityForResultEqualToSingle sides modifier i *
            probabilityForResultLessOrEqualTo sides 0 (c + 1) (k' - i)) = 0 := by
    intro k' hk'
    apply Finset.sum_eq_zero
    intro i hi
    simp only [Finset.mem_Icc] at hi
    rw [probabilityForResultEqualToSingle_zero_low sides modifier i (by omega), zero_mul]
  by_cases hk : k ≤ modifier
  · rw [probabilityForResultLessOrEqualTo_zero_low sides modifier (c + 2) k hk,
      hG0 k (by omega)]
  · have main : ∀ k' : ℤ, modifier ≤ k' →
        probabilityForResultLessOrEqualTo sides modifier (c + 2) k' =
          ∑ i ∈ Finset.Icc (1 : ℤ) (k' - 1),
            probabilityForResultEqualToSingle sides modifier i *
              probabilityForResultLessOrEqualTo sides 0 (c + 1) (k' - i) := by
      refine Int.le_induction ?_ ?_
      · rw [probabilityForResultLessOrEqualTo_zero_low sides modifier (c + 2) modifier le_rfl,
          hG0 modifier (by omega)]
      · intro k' hk' ih
        rw [probabilityForResultLessOrEqualTo_rec sides modifier (c + 2) (k' + 1),
          if_pos (by omega), show k' + 1 - 1 = k' by ring, ih,
          probabilityForResultEqualTo_conv, if_neg (by omega),
          show k' + 1 - 1 = k' by ring]
        have hsplit : ∀ i ∈ Finset.Icc (1 : ℤ) k',
            probabilityForResultEqualToSingle sides modifier i *
                probabilityForResultLessOrEqualTo sides 0 (c + 1) (k' + 1 - i) =
              probabilityForResultEqualToSingle sides modifier i *
                  probabilityForResultLessOrEqualTo sides 0 (c + 1) (k' - i) +
                probabilityForResultEqualToSingle sides modifier i *
                  probabilityForResultEqualTo sides 0 (c + 1) (k' + 1 - i) := by
          intro i hi
          simp only [Finset.mem_Icc] at hi
          rw [probabilityForResultLessOrEqualTo_rec sides 0 (c + 1) (k' + 1 - i),
            if_pos (by omega), show k' + 1 - i - 1 = k' - i by ring]
          ring
        rw [Finset.sum_congr rfl hsplit, Finset.sum_add_distrib]
        congr 1
        by_cases h1 : 1 ≤ k'
        · have hins : Finset.Icc (1 : ℤ) k' = insert k' (Finset.Icc 1 (k' - 1)) := by
            ext x
            simp only [Finset.mem_Icc, Finset.mem_insert]
            omega
          rw [hins, Finset.sum_insert (by simp only [Finset.mem_Icc]; omega)]
          rw [show k' - k' = (0 : ℤ) by ring,
            probabilityForResultLessOrEqualTo_zero_low sides 0 (c + 1) 0 le_rfl,
            mul_zero, zero_add]
        · rw [Finset.Icc_eq_empty (by omega : ¬(1 : ℤ) ≤ k'),
            Finset.Icc_eq_empty (by omega : ¬(1 : ℤ) ≤ k' - 1)]
    exact main k (by omega)

/-! ### Total mass never exceeds `1` -/

/-- Any interval sum of single-die masses is at most `1`. -/
lemma sum_single_le_one (sides modifier : ℤ) (hs : 2 ≤ sides) (a b : ℤ) :
    (∑ i ∈ Finset.Icc a b, probabilityForResultEqualToSingle sides modifier i) ≤ 1 := by
  have hsub : (∑ i ∈ Finset.Icc a b, probabilityForResultEqualToSingle sides modifier i) ≤
      ∑ i ∈ Finset.Icc (min a (modifier + 1)) b, probabilityForResultEqualToSingle sides modifier i :=
    Finset.sum_le_sum_of_subset_of_nonneg
      (Finset.Icc_subset_Icc (min_le_left _ _) le_rfl)
      (fun i _ _ => probabilityForResultEqualToSingle_nonneg sides modifier i hs)
  have heq : (∑ i ∈ Finset.Ioc modifier b, probabilityForResultEqualToSingle sides modifier i) =
      ∑ i ∈ Finset.Icc (min a (modifier + 1)) b, probabilityForResultEqualToSingle sides modifier i := by
    apply Finset.sum_subset
    · intro x hx
      simp only [Finset.mem_Ioc] at hx
      simp only [Finset.mem_Icc]
      omega
    · intro x hx hnx
      simp only [Finset.mem_Icc] at hx
      simp only [Finset.mem_Ioc, not_and, not_le] at hnx
      exact probabilityForResultEqualToSingle_zero_low sides modifier x (by by_contra hcon; omega)
  have heq2 : (∑ i ∈ Finset.Ioc modifier b, probabilityForResultEqualToSingle sides modifier i) =
      probabilityForResultLessOrEqualTo sides modifier 1 b := by
    rw [probabilityForResultLessOrEqualTo_eq_sum]
    exact Finset.sum_congr rfl fun i _ => (probabilityForResultEqualTo_one sides modifier i).symm
  calc (∑ i ∈ Finset.Icc a b, probabilityForResultEqualToSingle sides modifier i)
      ≤ ∑ i ∈ Finset.Icc (min a (modifier + 1)) b,
          probabilityForResultEqualToSingle sides modifier i := hsub
    _ = probabilityForResultLessOrEqualTo sides modifier 1 b := by rw [← heq, heq2]
    _ ≤ 1 := probabilityForResultLessOrEqualTo_single_le_one sides modifier b hs

/-- The CDF never exceeds `1`, for every count. -/
lemma probabilityForResultLessOrEqualTo_le_one (sides : ℤ) (hs : 2 ≤ sides) :
    ∀ (count : ℕ) (modifier k : ℤ),
      probabilityForResultLessOrEqualTo sides modifier count k ≤ 1 := by
  intro count
  induction count with
  | zero =>
    intro m k
    have hz : ∀ n, lessOrEqualAux sides m 0 n = 0 := by
      intro n
      induction n with
      | zero => rfl
      | succ n ih => rw [lessOrEqualAux, ih, probabilityForResultEqualTo_zero]; ring
    unfold probabilityForResultLessOrEqualTo
    rw [hz]
    norm_num
  | succ c ih =>
    intro m k
    cases c with
    | zero => exact probabilityForResultLessOrEqualTo_single_le_one sides m k hs
    | succ c' =>
      rw [probabilityForResultLessOrEqualTo_conv]
      calc (∑ i ∈ Finset.Icc (1 : ℤ) (k - 1),
              probabilityForResultEqualToSingle sides m i *
                probabilityForResultLessOrEqualTo sides 0 (c' + 1) (k - i))
          ≤ ∑ i ∈ Finset.Icc (1 : ℤ) (k - 1),
              probabilityForResultEqualToSingle sides m i * 1 :=
            Finset.sum_le_sum fun i _ =>
              mul_le_mul_of_nonneg_left (ih 0 (k - i))
                (probabilityForResultEqualToSingle_nonneg sides m i hs)
        _ = ∑ i ∈ Finset.Icc (1 : ℤ) (k - 1),
              probabilityForResultEqualToSingle sides m i := by
            simp [mul_one]
        _ ≤ 1 := sum_single_le_one sides m hs 1 (k - 1)

/-! ### The 2d6-5 dice: total mass 1/6, so the median scan never returns

For `count ≥ 2` the convolution window `i = 1 .. k - 1` skips every
single-die outcome `≤ 0`; with modifier `-5` the first block of the single
die lies entirely at `-4 .. 0` and carries mass `5/6`, so the whole
multi-die distribution retains at most `1/6`. -/

lemma probLE_2d6m5_le (k : ℤ) :
    probabilityForResultLessOrEqualTo 6 (-5) 2 k ≤ 1 / 6 := by
  have hconv := probabilityForResultLessOrEqualTo_conv 6 (-5) 0 k
  simp only [zero_add] at hconv
  rw [hconv]
  have hstep : (∑ i ∈ Finset.Icc (1 : ℤ) (k - 1),
      probabilityForResultEqualToSingle 6 (-5) i *
        probabilityForResultLessOrEqualTo 6 0 1 (k - i)) ≤
      ∑ i ∈ Finset.Icc (1 : ℤ) (k - 1), probabilityForResultEqualToSingle 6 (-5) i := by
    refine le_trans (Finset.sum_le_sum fun i _ =>
      mul_le_mul_of_nonneg_left
        (probabilityForResultLessOrEqualTo_single_le_one 6 0 (k - i) (by omega))
        (probabilityForResultEqualToSingle_nonneg 6 (-5) i (by omega))) ?_
    simp [mul_one]
  refine le_trans hstep ?_
  by_cases hk : 1 ≤ k
  · have hIoc : Finset.Icc (1 : ℤ) (k - 1) = Finset.Ioc (0 : ℤ) (k - 1) := by
      ext x
      simp only [Finset.mem_Icc, Finset.mem_Ioc]
      omega
    have hsplit := sum_Ioc_split (-5) 0 (k - 1) (by omega) (by omega)
      (probabilityForResultEqualToSingle 6 (-5))
    have hmass1 : (∑ i ∈ Finset.Ioc (-5 : ℤ) 0, probabilityForResultEqualToSingle 6 (-5) i) =
        probabilityForResultLessOrEqualTo 6 (-5) 1 0 := by
      rw [probabilityForResultLessOrEqualTo_eq_sum]
      exact Finset.sum_congr rfl fun i _ => (probabilityForResultEqualTo_one 6 (-5) i).symm
    have hmass2 : (∑ i ∈ Finset.Ioc (-5 : ℤ) (k - 1),
        probabilityForResultEqualToSingle 6 (-5) i) =
        probabilityForResultLessOrEqualTo 6 (-5) 1 (k - 1) := by
      rw [probabilityForResultLessOrEqualTo_eq_sum]
      exact Finset.sum_congr rfl fun i _ => (probabilityForResultEqualTo_one 6 (-5) i).symm
    have hval : probabilityForResultLessOrEqualTo 6 (-5) 1 0 = 5 / 6 := by with_unfolding_all decide
    have hle1 : probabilityForResultLessOrEqualTo 6 (-5) 1 (k - 1) ≤ 1 :=
      probabilityForResultLessOrEqualTo_single_le_one 6 (-5) (k - 1) (by omega)
    rw [hIoc]
    rw [hmass1, hmass2, hval] at hsplit
    linarith
  · rw [Finset.Icc_eq_empty (by omega : ¬(1 : ℤ) ≤ k - 1)]
    norm_num

/-- The scan of `calculateMedian` for the 2d6-5 dice never returns: both
stopping conditions need the CDF to reach `1/2`, and it never exceeds `1/6`. -/
lemma calculateMedianLoop_2d6m5 (fuel : ℕ) : ∀ i : ℤ,
    calculateMedianLoop 6 (-5) 2 fuel i = none := by
  induction fuel with
  | zero => intro i; rfl
  | succ f ih =>
    intro i
    have hb := probLE_2d6m5_le i
    have hno1 : ¬(1 / 2 ≤ probabilityForResultLessOrEqualTo 6 (-5) 2 i ∧
        1 / 2 ≤ probabilityForResultGreaterOrEqualTo 6 (-5) 2 i) := by
      rintro ⟨h1, _⟩
      linarith
    have hno2 : ¬(1 / 2 < probabilityForResultLessOrEqualTo 6 (-5) 2 i) := by
      intro h1
      linarith
    rw [calculateMedianLoop, if_neg hno1, if_neg hno2]
    exact ih (i + 1)

/-! ### Characterization of `simulateSumToInfinity` -/

lemma sstiLoop_spec (f : ℤ → ℚ) (t : ℚ) (minI maxI s n : ℤ)
    (hsn : s < n) (hstop : sstiStop f t minI maxI n)
    (hmin : ∀ m, s < m → m < n → ¬ sstiStop f t minI maxI m) :
    ∀ (fuel : ℕ) (i : ℤ), s ≤ i →
      fuel = (max minI maxI - i).toNat →
      (∀ m, s < m → m ≤ i → ¬ sstiStop f t minI maxI m) →
      sstiLoop f t minI maxI fuel i (∑ j ∈ Finset.Icc s i, f j) (f (i + 1)) =
        ∑ j ∈ Finset.Icc s n, f j := by
  intro fuel
  induction fuel with
  | zero =>
    intro i hsi hfuel hno
    have hM : max minI maxI ≤ i := by omega
    have hstop1 : sstiStop f t minI maxI (i + 1) :=
      ⟨by have := le_max_left minI maxI; omega,
        Or.inl (by have := le_max_right minI maxI; omega)⟩
    have hn1 : n = i + 1 := by
      have hni : i < n := by
        by_contra hcon
        push_neg at hcon
        exact hno n hsn hcon hstop
      have hni2 : ¬(i + 1 < n) := fun hlt => hmin (i + 1) (by omega) hlt hstop1
      omega
    rw [sstiLoop, hn1]
    exact (sum_Icc_top s i (by omega) f).symm
  | succ g ih =>
    intro i hsi hfuel hno
    rw [sstiLoop]
    by_cases hc : i + 1 < minI ∨ (i + 1 < maxI ∧ (t < f (i + 1) ∨ t < f (i + 1 + 1)))
    · rw [if_pos hc]
      have hnostop : ¬ sstiStop f t minI maxI (i + 1) := by
        unfold sstiStop
        rcases hc with h | ⟨h1, h2⟩
        · rintro ⟨ha, _⟩
          omega
        · rintro ⟨ha, hb⟩
          rcases hb with hb | ⟨hb1, hb2⟩
          · omega
          · rcases h2 with h2 | h2 <;> linarith
      have hacc : (∑ j ∈ Finset.Icc s i, f j) + f (i + 1) =
          ∑ j ∈ Finset.Icc s (i + 1), f j := (sum_Icc_top s i (by omega) f).symm
      rw [hacc]
      refine ih (i + 1) (by omega) (by omega) ?_
      intro m hm1 hm2
      by_cases hmi : m ≤ i
      · exact hno m hm1 hmi
      · have hmeq : m = i + 1 := by omega
        rw [hmeq]
        exact hnostop
    · rw [if_neg hc]
      have hstop1 : sstiStop f t minI maxI (i + 1) := by
        unfold sstiStop
        push_neg at hc
        obtain ⟨h1, h2⟩ := hc
        refine ⟨by omega, ?_⟩
        by_cases hm : maxI ≤ i + 1
        · exact Or.inl hm
        · exact Or.inr (h2 (by omega))
      have hn1 : n = i + 1 := by
        have hni : i < n := by
          by_contra hcon
          push_neg at hcon
          exact hno n hsn hcon hstop
        have hni2 : ¬(i + 1 < n) := fun hlt => hmin (i + 1) (by omega) hlt hstop1
        omega
      rw [hn1]
      exact (sum_Icc_top s i (by omega) f).symm

/-! ### The claims -/

set_option maxRecDepth 20000 in
/-- C1 (amended): for the dice parsed from `"1d6"` (count 1, sides 6,
modifier 0), `calculateExpectedValue()` returns exactly `391895/93312`
(≈ 4.19984, the truncated exploding-die series), and for the dice parsed
from `"2d6"` it returns exactly `391895/46656` (≈ 8.39968) — not `3.5` and
`7.0`, which are the expectations of non-exploding dice. -/
theorem expectedValue_1d6_2d6_values :
    Dice.parse ("1d6".toList) = Except.ok ⟨"1d6".toList, some 1, some 6, some 0⟩ ∧
    Dice.parse ("2d6".toList) = Except.ok ⟨"2d6".toList, some 2, some 6, some 0⟩ ∧
    calculateExpectedValue 6 0 1 = 391895 / 93312 ∧
    calculateExpectedValue 6 0 2 = 391895 / 46656 :=
  ⟨by with_unfolding_all rfl, by with_unfolding_all rfl,
    Rat.ext (by with_unfolding_all decide) (by with_unfolding_all decide),
    Rat.ext (by with_unfolding_all decide) (by with_unfolding_all decide)⟩

set_option maxRecDepth 20000 in
/-- C1 (counterexample): for the dice parsed from `"1d6"`,
`calculateExpectedValue()` is not `3.5`, and for `"2d6"` it is not `7.0`:
the engine models exploding dice, whose expectation exceeds the plain-die
value. -/
theorem expectedValue_1d6_2d6_not_nonexploding :
    Dice.parse ("1d6".toList) = Except.ok ⟨"1d6".toList, some 1, some 6, some 0⟩ ∧
    Dice.parse ("2d6".toList) = Except.ok ⟨"2d6".toList, some 2, some 6, some 0⟩ ∧
    calculateExpectedValue 6 0 1 ≠ 7 / 2 ∧
    calculateExpectedValue 6 0 2 ≠ 7 :=
  ⟨by with_unfolding_all rfl, by with_unfolding_all rfl,
    fun h => absurd (congrArg Rat.num h) (by with_unfolding_all decide),
    fun h => absurd (congrArg Rat.num h) (by with_unfolding_all decide)⟩

set_option maxRecDepth 20000 in
/-- C2: for every valid dice with `count == 1` and every integer `k`,
`probabilityForResultEqualTo(k)` is `0` when `k - modifier` is negative or an
exact multiple of `sides`, and otherwise equals
`sides ^ -(explosionCount(k - modifier) + 1)`. -/
theorem probabilityForResultEqualTo_single_formula (sides modifier k : ℤ)
    (h2 : 2 ≤ sides) (h100 : sides ≤ 100) :
    (k - modifier < 0 ∨ sides ∣ (k - modifier) →
      probabilityForResultEqualTo sides modifier 1 k = 0) ∧
    (¬(k - modifier < 0 ∨ sides ∣ (k - modifier)) →
      probabilityForResultEqualTo sides modifier 1 k =
        (sides : ℚ) ^ (-(getExplosionCountForResult sides (k - modifier) + 1))) := by
  constructor
  · intro h
    rw [probabilityForResultEqualTo_one]
    unfold probabilityForResultEqualToSingle
    rcases h with h | h
    · rw [if_pos (Or.inr h)]
    · rw [if_pos (Or.inl (Int.emod_eq_zero_of_dvd h))]
  · intro h
    push_neg at h
    obtain ⟨hpos, hndvd⟩ := h
    rw [probabilityForResultEqualTo_one]
    unfold probabilityForResultEqualToSingle
    rw [if_neg (not_or.mpr
      ⟨fun hc => hndvd (Int.dvd_of_emod_eq_zero hc), by omega⟩)]
    have he : 0 ≤ getExplosionCountForResult sides (k - modifier) :=
      Int.fdiv_nonneg (by omega) (by omega)
    have hS0 : (0 : ℚ) < (sides : ℚ) := by exact_mod_cast (by omega : (0 : ℤ) < sides)
    rw [zpow_neg,
      show getExplosionCountForResult sides (k - modifier) + 1 =
        (((getExplosionCountForResult sides (k - modifier)).toNat + 1 : ℕ) : ℤ) by omega,
      zpow_natCast, one_div]

/-- C2 (witness): the formula at the 1d6 die and `k = 7`. -/
theorem probabilityForResultEqualTo_single_formula_witness :
    probabilityForResultEqualTo 6 0 1 7 =
      (6 : ℚ) ^ (-(getExplosionCountForResult 6 (7 - 0) + 1)) :=
  (probabilityForResultEqualTo_single_formula 6 0 7 (by norm_num) (by norm_num)).2 (by decide)

/-- C3 (amended): for two dice both parsed from `"1d4"`, the win probability
of one against the other — the sum over `i` of `P(self = i) · P(other < i)`,
ties counting as neither winning — is exactly `6706791/16777216` ≈ 0.39976
(≈ 0.4, since exploding-d4 ties have probability ≈ 1/5), not ≈ 0.375. -/
theorem winProbability_1d4_value :
    Dice.parse ("1d4".toList) = Except.ok ⟨"1d4".toList, some 1, some 4, some 0⟩ ∧
    probabilityToWinAgainst 4 0 1 4 0 1 = 6706791 / 16777216 :=
  ⟨by with_unfolding_all rfl,
    Rat.ext (by with_unfolding_all decide) (by with_unfolding_all decide)⟩

set_option maxRecDepth 20000 in
/-- C3 (counterexample): the 1d4-versus-1d4 win probability is not `0.375`
(it is ≈ 0.39976; the value `0.375` belongs to a non-exploding d4). -/
theorem winProbability_1d4_not_375 :
    Dice.parse ("1d4".toList) = Except.ok ⟨"1d4".toList, some 1, some 4, some 0⟩ ∧
    probabilityToWinAgainst 4 0 1 4 0 1 ≠ 3 / 8 :=
  ⟨by with_unfolding_all rfl,
    fun h => absurd (congrArg Rat.num h) (by with_unfolding_all decide)⟩

/-- C4: for every valid dice with `count > 1` and every expectation argument,
`calculateVariance(exp)` returns the single-die variance — the variance of
the `count == 1` die with the same sides and modifier — not `count` times it. -/
theorem calculateVariance_multi_eq_single (sides modifier : ℤ) (count : ℕ) (exp : ℚ)
    (hc : 2 ≤ count) (hc16 : count ≤ 16) (h2 : 2 ≤ sides) (h100 : sides ≤ 100) :
    calculateVariance sides modifier count exp = calculateVariance sides modifier 1 exp := by
  unfold calculateVariance
  rw [if_neg (by omega), if_pos rfl]

/-- C4 (witness): the 2d6 variance at expectation `21/5` equals the 1d6 one. -/
theorem calculateVariance_multi_eq_single_witness :
    calculateVariance 6 0 2 (21 / 5) = calculateVariance 6 0 1 (21 / 5) :=
  calculateVariance_multi_eq_single 6 0 2 (21 / 5) (by norm_num) (by norm_num)
    (by norm_num) (by norm_num)

/-- C5: for every term function and every configuration,
`simulateSumToInfinity` returns `f startIndex + … + f n` where `n` is the
first index greater than `startIndex` with `n ≥ minIterations` and
(`n ≥ maxIterations` or both `f n ≤ threshold` and `f (n+1) ≤ threshold`);
in particular a single small term followed by a large one does not stop the
sum, because `sstiStop` requires two consecutive terms at or below the
threshold. -/
theorem simulateSumToInfinity_eq_partial_sum (f : ℤ → ℚ) (threshold : ℚ)
    (minIterations maxIterations startIndex n : ℤ)
    (hsn : startIndex < n)
    (hstop : sstiStop f threshold minIterations maxIterations n)
    (hmin : ∀ m, startIndex < m → m < n →
      ¬ sstiStop f threshold minIterations maxIterations m) :
    simulateSumToInfinity f threshold minIterations maxIterations startIndex =
      ∑ j ∈ Finset.Icc startIndex n, f j := by
  unfold simulateSumToInfinity
  have h0 : (∑ j ∈ Finset.Icc startIndex startIndex, f j) = f startIndex := by
    rw [Finset.Icc_self, Finset.sum_singleton]
  have hmain := sstiLoop_spec f threshold minIterations maxIterations startIndex n hsn hstop
    hmin ((max minIterations maxIterations - startIndex).toNat) startIndex le_rfl rfl
    (fun m hm1 hm2 => absurd hm1 (by omega))
  rw [h0] at hmain
  exact hmain

/-- C5 (witness): with the constant term `1`, threshold `0`, minIterations
`2`, maxIterations `3`, startIndex `0`, the loop stops at `n = 3` and
returns the four-term sum. -/
theorem simulateSumToInfinity_eq_partial_sum_witness :
    simulateSumToInfinity (fun _ => 1) 0 2 3 0 =
      ∑ j ∈ Finset.Icc (0 : ℤ) 3, (fun _ => (1 : ℚ)) j :=
  simulateSumToInfinity_eq_partial_sum (fun _ => 1) 0 2 3 0 3 (by norm_num)
    ⟨by norm_num, Or.inl (by norm_num)⟩
    (by
      rintro m h1 h2 ⟨ha, hb | hb⟩
      · omega
      · exact absurd hb.1 (by norm_num))

/-- C6: for every valid dice, the CDF `probabilityForResultLessOrEqualTo` is
monotone (`k1 < k2` implies `P(X ≤ k1) ≤ P(X ≤ k2)`), it is complementary to
`probabilityForResultGreaterThan` (`P(X ≤ k) + P(X > k) = 1`), and it is
exactly `0` for every `k ≤ modifier`. -/
theorem cdf_monotone_complement_base (sides modifier : ℤ) (count : ℕ)
    (h2 : 2 ≤ sides) (h100 : sides ≤ 100) (h1 : 1 ≤ count) (h16 : count ≤ 16) :
    (∀ k1 k2 : ℤ, k1 < k2 →
      probabilityForResultLessOrEqualTo sides modifier count k1 ≤
        probabilityForResultLessOrEqualTo sides modifier count k2) ∧
    (∀ k : ℤ,
      probabilityForResultLessOrEqualTo sides modifier count k +
        probabilityForResultGreaterThan sides modifier count k = 1) ∧
    (∀ k : ℤ, k ≤ modifier →
      probabilityForResultLessOrEqualTo sides modifier count k = 0) := by
  refine ⟨?_, ?_, ?_⟩
  · intro k1 k2 hk
    unfold probabilityForResultLessOrEqualTo
    exact lessOrEqualAux_mono sides modifier count h2 (by omega)
  · intro k
    unfold probabilityForResultGreaterThan
    ring
  · intro k hk
    exact probabilityForResultLessOrEqualTo_zero_low sides modifier count k hk

/-- C6 (witness): monotonicity of the 1d6 CDF between `3` and `5`. -/
theorem cdf_monotone_complement_base_witness :
    probabilityForResultLessOrEqualTo 6 0 1 3 ≤ probabilityForResultLessOrEqualTo 6 0 1 5 :=
  (cdf_monotone_complement_base 6 0 1 (by norm_num) (by norm_num) (by norm_num)
    (by norm_num)).1 3 5 (by norm_num)

/-- C7 (code evaluated at the failing input): for the valid dice
`Dice(count = 2, sides = 6, modifier = -5)` (descriptor `"2d6-5"`), the
`calculateMedian` scan never returns, whatever fuel it is given: the
convolution window `i = 1 .. k-1` drops every single-die outcome `≤ 0`, the
CDF stays below `1/6 < 1/2` for all `k`, and both stopping conditions of
the scan need the CDF to reach `1/2`.  The claim that the loop terminates
for every valid dice fails on this input. -/
theorem calculateMedian_2d6m5_never_returns :
    ∀ fuel : ℕ, calculateMedian 6 (-5) 2 fuel = none := fun fuel =>
  calculateMedianLoop_2d6m5 fuel (1 + (-5))

/-- C8 (code evaluated at the failing input): `new Dice("17d6", 17, 6, 0)`
throws, but its message reads `"Dice count may not exceed 32"` although the
enforced bound is `count ≤ 16`: the error does not name the violated bound. -/
theorem diceConstructor_count17_error_message :
    diceConstructor ("17d6".toList) (some 17) (some 6) (some 0) =
      Except.error ("Dice count may not exceed 32".toList) := by
  with_unfolding_all rfl

/-- C9: for every dice, the `pFail` field of the `DiceResult` returned by
`calculate()` equals `probabilityForResultLessThan(4)`, which is the CDF at
`3`, i.e. the probability that the roll is strictly less than `4`. -/
theorem calculate_pFail_lessThan_four (sides modifier : ℤ) (count : ℕ)
    (concurringDices : List (ℤ × ℤ × ℕ)) (medianFuel : ℕ) :
    (calculate sides modifier count concurringDices medianFuel).pFail =
        probabilityForResultLessThan sides modifier count 4 ∧
      probabilityForResultLessThan sides modifier count 4 =
        probabilityForResultLessOrEqualTo sides modifier count 3 :=
  ⟨rfl, rfl⟩

/-- C10: the descriptor `"1d6-"` has a modifier delimiter but an empty
modifier token; `Dice.parse` raises no error: `parseInt("")` is `NaN`
(modelled `none`), the modifier is unconstrained, and the returned dice has
a `NaN` modifier and the canonical name `"1d6-NaN"`, which contains
`"NaN"`. -/
theorem parse_empty_modifier_token_nan :
    Dice.parse ("1d6-".toList) =
        Except.ok ⟨"1d6-NaN".toList, some 1, some 6, none⟩ ∧
      List.IsInfix ("NaN".toList) ("1d6-NaN".toList) :=
  ⟨by with_unfolding_all rfl, ⟨"1d6-".toList, [], by with_unfolding_all rfl⟩⟩

end DiceCalc
